import Mathlib

/-!
Verification of the `dom-utils` library (BeneathTheInk/dom-utils).

The library operates on DOM trees.  We model a DOM node as an inductive
tree: element nodes (with a tag name and an ordered list of children),
text nodes (with a string value) and comment nodes (a non-element,
non-text node kind, exercising the library's node-type filters).

A node *in* a tree is identified by its path from the root.  Paths are
stored in reverse order (deepest child index first), so the parent of a
node is the tail of its path and the root is `[]`.  This mirrors DOM
node identity: `parentNode`, `previousSibling`, `nextSibling` become
operations on reversed paths.
-/

/-- Model of a DOM node: element (tag, children), text, or comment. -/
inductive DNode where
  | element (tag : String) (children : List DNode)
  | text (value : String)
  | comment (value : String)

/-- A node's identity inside a fixed tree: its reversed path of child
indices from the root (deepest index first; `[]` is the root). -/
abbrev RPath := List Nat

/-- `node.childNodes[i]` — the `i`-th child of a node, if any. -/
def childAt : DNode → Nat → Option DNode
  | .element _ cs, i => cs[i]?
  | _, _ => none

/-- Resolve a reversed path to the node it denotes in tree `t`. -/
def resolveR (t : DNode) : RPath → Option DNode
  | [] => some t
  | i :: q =>
    match resolveR t q with
    | some n => childAt n i
    | none => none

/-- Whether a reversed path denotes a node of tree `t`. -/
def hasNode (t : DNode) (p : RPath) : Bool :=
  (resolveR t p).isSome

/-- `node.hasChildNodes()`. -/
def hasChildNodes : DNode → Bool
  | .element _ cs => !cs.isEmpty
  | _ => false

/-- Whether a node is a text node (`nodeType === Node.TEXT_NODE`). -/
def isTextNode : DNode → Bool
  | .text _ => true
  | _ => false

mutual

/-- Number of nodes of a tree (the node itself plus all descendants).
Used as a fuel bound for the source's tree-walking loops: a walk visits
each node at most once. -/
def nodeCount : DNode → Nat
  | .element _ cs => 1 + nodeCountList cs
  | _ => 1

/-- Sum of `nodeCount` over a list of children. -/
def nodeCountList : List DNode → Nat
  | [] => 0
  | c :: rest => nodeCount c + nodeCountList rest

end

mutual

/-- Serialization of a node as HTML markup (its `outerHTML`).  The model
has no attributes, so an element serializes as `<tag>…children…</tag>`,
a text node as its value and a comment as `<!--value-->`. -/
def outerHTML : DNode → String
  | .element tag cs => "<" ++ tag ++ ">" ++ outerHTMLList cs ++ "</" ++ tag ++ ">"
  | .text s => s
  | .comment s => "<!--" ++ s ++ "-->"

/-- Concatenated serialization of a list of children. -/
def outerHTMLList : List DNode → String
  | [] => ""
  | c :: rest => outerHTML c ++ outerHTMLList rest

end

/-- `element.innerHTML`: the markup of the children. -/
def innerHTML : DNode → String
  | .element _ cs => outerHTMLList cs
  | _ => ""

mutual

/-- Concatenated data of all descendant text nodes. -/
def descTexts : DNode → String
  | .element _ cs => descTextsList cs
  | .text s => s
  | .comment _ => ""

/-- `descTexts` over a list of children. -/
def descTextsList : List DNode → String
  | [] => ""
  | c :: rest => descTexts c ++ descTextsList rest

end

/-- `node.textContent`: for an element, the concatenation of all
descendant text node data (comments excluded); for a text or comment
node, its own data. -/
def textContent : DNode → String
  | .element _ cs => descTextsList cs
  | .text s => s
  | .comment s => s

/-- `getTextValue(node)` (part_001 lines 857-864):
`ELEMENT → innerHTML || textContent || ""`, `TEXT → nodeValue || ""`,
`default → ""`. -/
def getTextValue : DNode → String
  | .element tag cs =>
    let ih := innerHTML (.element tag cs)
    if ih ≠ "" then ih
    else
      let tc := textContent (.element tag cs)
      if tc ≠ "" then tc else ""
  | .text s => s
  | .comment _ => ""

/-- `getNextExtendedSibling(node)` (part_001 lines 803-811): the next
sibling of the node, or of the nearest ancestor that has one; `null`
otherwise.  On reversed paths: bump the deepest index if that sibling
exists in `t`, else recurse on the parent. -/
def getNextExtendedSibling (t : DNode) : RPath → Option RPath
  | [] => none
  | i :: q =>
    if hasNode t ((i + 1) :: q) then some ((i + 1) :: q)
    else getNextExtendedSibling t q

/-- `getPreviousExtendedSibling(node)` (part_001 lines 819-827): the
previous sibling of the node, or of the nearest ancestor that has one;
`null` otherwise.  A node has a previous sibling iff its child index is
positive. -/
def getPreviousExtendedSibling : RPath → Option RPath
  | [] => none
  | i :: q =>
    if i = 0 then getPreviousExtendedSibling q
    else some ((i - 1) :: q)

mutual

/-- Relative reversed path from a node down to its deepest last leaf
(`getLastLeafNode`'s descent, part_001 lines 791-795): repeatedly take
the last child while children exist. -/
def lastLeafRel : DNode → RPath
  | .element _ cs => lastLeafRelList 0 cs
  | .text _ => []
  | .comment _ => []

/-- Descent into the last element of a child list; `i` is the sibling
index of the list's first element. -/
def lastLeafRelList (i : Nat) : List DNode → RPath
  | [] => []
  | [c] => lastLeafRel c ++ [i]
  | _ :: rest => lastLeafRelList (i + 1) rest

end

/-- `getLastLeafNode(node)` as a path operation: the deepest last leaf
of the node denoted by `p`. -/
def getLastLeafNode (t : DNode) (p : RPath) : RPath :=
  match resolveR t p with
  | some n => lastLeafRel n ++ p
  | none => p

/-- `getNextNode(node)` (part_001 lines 835-838): the first child if the
node has children, otherwise the next extended sibling. -/
def getNextNode (t : DNode) (p : RPath) : Option RPath :=
  match resolveR t p with
  | some n =>
    if hasChildNodes n then some (0 :: p) else getNextExtendedSibling t p
  | none => none

/-- `getPreviousNode(node)` (part_001 lines 846-849):
`node.previousSibling == null ? node.parentNode
  : getLastLeafNode(node.previousSibling)`.
The root (`[]`) has neither a previous sibling nor a parent, so `none`. -/
def getPreviousNode (t : DNode) : RPath → Option RPath
  | [] => none
  | i :: q =>
    if i = 0 then some q else some (getLastLeafNode t ((i - 1) :: q))

/-- `getRootNode(node)` (part_001 lines 872-879): walk `parentNode`
until it is null.  On reversed paths this always reaches `[]`. -/
def getRootNodeP : RPath → RPath
  | [] => []
  | _ :: q => getRootNodeP q

/-- `contains(parent, node)` (part_001 lines 888-896): walk `node` and
its ancestors, returning true when one of them is `parent`.  On
reversed paths, an ancestor chain is the chain of tails. -/
def containsNode (parent : RPath) : RPath → Bool
  | [] => ([] : RPath) = parent
  | i :: q => (i :: q : RPath) = parent || containsNode parent q

/-- A `Cursor` (part_001 lines 539-545): a DOM position given by an
anchor node and a character index.  For a text anchor the index is a
character offset into the node's value; for any other anchor it acts as
a boolean: nonzero means "after" the node, zero means "before". -/
structure Cursor where
  node : RPath
  index : Nat
deriving DecidableEq, Repr

/-- The inner loop of `Cursor#isAfter` (part_001 lines 596-599): walk
the previous-extended-sibling chain, returning true as soon as a chain
node contains the target.  `fuel` bounds the iteration count; the chain
visits pairwise distinct nodes, so `nodeCount t + 1` steps suffice. -/
def searchPrev (t : DNode) (target : RPath) : Nat → Option RPath → Bool
  | 0, _ => false
  | _ + 1, none => false
  | fuel + 1, some p =>
    containsNode p target || searchPrev t target fuel (getPreviousExtendedSibling p)

/-- The inner loop of `Cursor#isBefore` (part_001 lines 623-626): walk
the next-extended-sibling chain, returning true as soon as a chain node
contains the target. -/
def searchNext (t : DNode) (target : RPath) : Nat → Option RPath → Bool
  | 0, _ => false
  | _ + 1, none => false
  | fuel + 1, some p =>
    containsNode p target || searchNext t target fuel (getNextExtendedSibling t p)

/-- `Cursor#isAfter(cursor)` (part_001 lines 583-602).  Same anchor:
text anchors compare indices numerically, other anchors treat the index
as a before/after boolean.  Different anchors: search the
previous-extended-sibling chain, starting at the anchor itself when the
index is nonzero ("after") and at its previous extended sibling
otherwise. -/
def isAfter (t : DNode) (a b : Cursor) : Bool :=
  if a.node = b.node then
    match resolveR t a.node with
    | some (.text _) => b.index < a.index
    | _ => if a.index ≠ 0 then (if b.index ≠ 0 then false else true) else false
  else
    searchPrev t b.node (nodeCount t + 1)
      (if a.index ≠ 0 then some a.node else getPreviousExtendedSibling a.node)

/-- `Cursor#isBefore(cursor)` (part_001 lines 610-629), mirror image of
`isAfter` in the forward direction. -/
def isBefore (t : DNode) (a b : Cursor) : Bool :=
  if a.node = b.node then
    match resolveR t a.node with
    | some (.text _) => a.index < b.index
    | _ => if a.index ≠ 0 then false else (if b.index ≠ 0 then true else false)
  else
    searchNext t b.node (nodeCount t + 1)
      (if a.index ≠ 0 then getNextExtendedSibling t a.node else some a.node)

/-- Path of `curnode.firstChild`, or none when there are no children. -/
def firstChildPath (n : DNode) (p : RPath) : Option RPath :=
  match n with
  | .element _ (_ :: _) => some (0 :: p)
  | _ => none

/-- Path of `curnode.lastChild`, or none when there are no children. -/
def lastChildPath (n : DNode) (p : RPath) : Option RPath :=
  match n with
  | .element _ cs => if cs.isEmpty then none else some ((cs.length - 1) :: p)
  | _ => none

/-- The walk of `Cursor#move` (part_001 lines 670-704).  `orig` is the
cursor's original anchor (used for the saturation result), `off` the
absolute move distance, `count` the characters consumed so far.  When
the current node is `none` the tree is exhausted and the cursor clamps
to the root with index 1 (forward) or 0 (backward).  Element and text
nodes are counted via `getTextValue`; a text node in whose value the
remaining offset falls is the answer; an element whose length exceeds
the remainder is dived into (`firstChild`/`lastChild`); other node
kinds are skipped without counting.  Returns `none` only on fuel
exhaustion, which a fuel of `nodeCount t + 1` rules out. -/
def moveLoop (t : DNode) (orig : RPath) (reverse : Bool) (off : Nat) :
    Nat → Nat → Option RPath → Option Cursor
  | 0, _, _ => none
  | _ + 1, _, none => some ⟨getRootNodeP orig, if reverse then 0 else 1⟩
  | fuel + 1, count, some p =>
    match resolveR t p with
    | some (.text s) =>
      if off < count + s.length then
        some ⟨p, if reverse then s.length - (off - count) else off - count⟩
      else
        moveLoop t orig reverse off fuel (count + s.length)
          (if reverse then getPreviousExtendedSibling p else getNextExtendedSibling t p)
    | some (.element tag cs) =>
      if off < count + (getTextValue (.element tag cs)).length then
        moveLoop t orig reverse off fuel count
          (if reverse then lastChildPath (.element tag cs) p
           else firstChildPath (.element tag cs) p)
      else
        moveLoop t orig reverse off fuel (count + (getTextValue (.element tag cs)).length)
          (if reverse then getPreviousExtendedSibling p else getNextExtendedSibling t p)
    | _ =>
      moveLoop t orig reverse off fuel count
        (if reverse then getPreviousExtendedSibling p else getNextExtendedSibling t p)

/-- `Cursor#move(offset)` (part_001 lines 637-705).  For a text anchor,
the characters between the index and the relevant edge of the value are
counted first; if the distance fits strictly within them the cursor
stays on the same anchor ("fast path").  Otherwise a walk starts at the
appropriate neighbour (a text anchor itself is never re-counted; a
non-text anchor is included in the count exactly when the index points
at the side the walk leaves from). -/
def move (t : DNode) (c : Cursor) (offset : Int) : Option Cursor :=
  let reverse := decide (offset < 0)
  let off := offset.natAbs
  match resolveR t c.node with
  | some (.text s) =>
    let count := if reverse then c.index else s.length - c.index
    if off < count then
      some ⟨c.node, if reverse then c.index - off else c.index + off⟩
    else
      moveLoop t c.node reverse off (nodeCount t + 1) count
        (if reverse then getPreviousExtendedSibling c.node
         else getNextExtendedSibling t c.node)
  | _ =>
    moveLoop t c.node reverse off (nodeCount t + 1) 0
      (if c.index ≠ 0 then
        (if reverse then some c.node else getNextExtendedSibling t c.node)
       else
        (if reverse then getPreviousExtendedSibling c.node else some c.node))

/-- JavaScript `String.prototype.substring(a, b)`: clamps both indices
to the string and swaps them when out of order. -/
def jsSubstring (s : String) (a b : Nat) : String :=
  (s.take (max a b)).drop (min a b)

mutual

/-- The `extract` closure of `slice` (part_001 lines 496-528, the
literate variant).  A node is kept when it contains the start anchor,
contains the end anchor, or lies strictly between the two cursors
(tested as `start.isBefore(node) && end.isAfter(node)`, where the bare
node is converted to a cursor with index 0 — the literate variant's
index setter coerces a missing index to 0).  A kept text node that is
an anchor is truncated: both anchors → `substring(start.index,
end.index)`; start anchor only → `substr(start.index)` (suffix); end
anchor only → `substr(0, end.index)` (prefix).  A kept element keeps
the kept extractions of its children, in order. -/
def extract (t : DNode) (s e : Cursor) : DNode → RPath → Option DNode
  | n, p =>
    if containsNode p s.node || containsNode p e.node ||
        (isBefore t s ⟨p, 0⟩ && isAfter t e ⟨p, 0⟩) then
      some (match n with
        | .text str =>
          .text (if p = s.node then
                   (if p = e.node then jsSubstring str s.index e.index else str.drop s.index)
                 else if p = e.node then str.take e.index
                 else str)
        | .element tag cs => .element tag (extractList t s e cs 0 p)
        | .comment c => .comment c)
    else none

/-- `extract` mapped over a child list; `i` is the index of the first
child in `cs` among its siblings.  Children whose extraction is `none`
are skipped, the rest are appended in order. -/
def extractList (t : DNode) (s e : Cursor) : List DNode → Nat → RPath → List DNode
  | [], _, _ => []
  | c :: rest, i, p =>
    match extract t s e c (i :: p) with
    | some nc => nc :: extractList t s e rest (i + 1) p
    | none => extractList t s e rest (i + 1) p

end

/-- `slice(start, end, root)` (part_001 lines 467-529).  Cursors are
optional; a missing root must be derivable (the source throws when
start or end is missing too — note its `start == null ? end.node :
start.node` ternary can then only ever take the `start.node` branch).
Missing cursors default to the root's "before" (`new Cursor(root,
false)` → index 0) and "after" (`new Cursor(root, true)` → index 1)
positions.  Both anchors must lie inside the root; out-of-order cursors
are swapped; then `extract` runs from the root.  The root path is
resolved in `t` to recover the node it denotes (a real DOM node always
resolves; an unresolvable root yields `ok none`, which no reachable
call produces). -/
def sliceDom (t : DNode) (start endc : Option Cursor) (root : Option RPath) :
    Except String (Option DNode) := do
  let root ← match root, start, endc with
    | some r, _, _ => Except.ok r
    | none, none, _ =>
      Except.error "Must specify a root node if start and end cursors are not defined."
    | none, _, none =>
      Except.error "Must specify a root node if start and end cursors are not defined."
    | none, some s, some _ => Except.ok (getRootNodeP s.node)
  let s := start.getD ⟨root, 0⟩
  let e := endc.getD ⟨root, 1⟩
  if ¬ containsNode root s.node then
    Except.error "Start node isn't in the root node."
  else if ¬ containsNode root e.node then
    Except.error "End node isn't in the root node."
  else
    let se := if isAfter t s e then (e, s) else (s, e)
    match resolveR t root with
    | some n => Except.ok (extract t se.1 se.2 n root)
    | none => Except.ok none

/-- A JavaScript value, as far as the `Cursor` constructor's dynamic
checks can distinguish them: a DOM node, an (integer) number, `NaN`, a
boolean, `null`, `undefined`, or a string. -/
inductive JSVal where
  | jsNode (p : RPath)
  | num (n : Int)
  | nan
  | bool (b : Bool)
  | jsNull
  | undef
  | str (s : String)
deriving DecidableEq

/-- `isNode(value)` (part_001 lines 736-739). -/
def isNodeVal : JSVal → Bool
  | .jsNode _ => true
  | _ => false

/-- The `index` setter (part_001 lines 557-566, the JSDoc variant): a
boolean is coerced with `n | 0` to 0/1; then anything that is not a
non-negative number (non-numbers, `NaN`, negatives) throws. -/
def setIndex (v : JSVal) : Except String Int :=
  let v' := match v with
    | .bool b => JSVal.num (if b then 1 else 0)
    | x => x
  match v' with
  | .num n =>
    if n < 0 then Except.error "Expecting a non-negative integer for the index."
    else Except.ok n
  | _ => Except.error "Expecting a non-negative integer for the index."

/-- A constructed cursor as the dynamic model sees it. -/
structure CursorJS where
  node : RPath
  index : Int
deriving DecidableEq

/-- The `Cursor` constructor (part_001 lines 539-545): throws unless the
anchor is a node, then assigns the index through the checked setter. -/
def mkCursor (node index : JSVal) : Except String CursorJS :=
  if isNodeVal node then
    match node with
    | .jsNode p =>
      (match setIndex index with
       | .ok n => Except.ok ⟨p, n⟩
       | .error e => Except.error e)
    | _ => Except.error "Expecting node for cursor."
  else Except.error "Expecting node for cursor."

/-- The two-text-node tree of the spec's scenarios:
`root → [A = text a, B = text b]`. -/
def twoTexts (tag a b : String) : DNode :=
  .element tag [.text a, .text b]

/-- C2: the claim says `slice` with a missing root fails only when both
cursors are missing; but the source throws whenever root is missing and
*either* cursor is, so giving only a start cursor already fails. -/
theorem slice_missing_root_one_cursor_errors :
    sliceDom (twoTexts "div" "hello" "world") (some ⟨[0], 0⟩) none none =
      Except.error "Must specify a root node if start and end cursors are not defined." := by
  rfl

/-- Helper: the fast path of `Cursor#move` for text anchors, in both
directions. -/
lemma moveText_fastPath (t : DNode) (p : RPath) (s : String) (i : Nat)
    (h : resolveR t p = some (.text s)) :
    (∀ d : Nat, d < s.length - i →
      move t ⟨p, i⟩ (d : Int) = some ⟨p, i + d⟩) ∧
    (∀ d : Nat, 0 < d → d < i →
      move t ⟨p, i⟩ (-(d : Int)) = some ⟨p, i - d⟩) := by
  constructor
  · intro d hd
    have hrev : ¬((d : Int) < 0) := by omega
    simp only [move, h, decide_eq_true_eq, if_neg hrev, decide_eq_false hrev,
      Bool.false_eq_true, if_false, Int.natAbs_ofNat]
    rw [if_pos hd]
  · intro d hd0 hdi
    have hrev : (-(d : Int)) < 0 := by omega
    simp only [move, h, decide_eq_true_eq, if_pos hrev, decide_eq_true hrev,
      if_true, Int.natAbs_neg, Int.natAbs_ofNat]
    rw [if_pos hdi]

/-- C4: for a text-anchored position, a move whose distance fits
strictly within the characters remaining between the index and the
relevant edge of the text stays on the same anchor, with the index
shifted by the delta (the fast path; no tree walk). -/
theorem move_fast_path (t : DNode) (p : RPath) (s : String) (i : Nat)
    (h : resolveR t p = some (.text s)) :
    (∀ d : Nat, d < s.length - i →
      move t ⟨p, i⟩ (d : Int) = some ⟨p, i + d⟩) ∧
    (∀ d : Nat, 0 < d → d < i →
      move t ⟨p, i⟩ (-(d : Int)) = some ⟨p, i - d⟩) :=
  moveText_fastPath t p s i h

/-- C4 witness: over `root → [text "hello", text "world"]`,
`move((A,0), 3)` stays on `A` at index 3. -/
theorem move_fast_path_witness :
    move (twoTexts "div" "hello" "world") ⟨[0], 0⟩ 3 = some ⟨[0], 3⟩ :=
  (move_fast_path (twoTexts "div" "hello" "world") [0] "hello" 0 rfl).1 3 (by decide)

/-- Helper: over the two-text tree, a forward move that leaves the
first text node but whose remainder falls within the second lands in
the second. -/
lemma twoTexts_cross (tag a b : String) (i k : Nat)
    (h2 : a.length - i ≤ k) (h3 : k - (a.length - i) < b.length) :
    move (twoTexts tag a b) ⟨[0], i⟩ (k : Int) = some ⟨[1], k - (a.length - i)⟩ := by
  have hrev : decide ((k : Int) < 0) = false := by simp
  have hres : resolveR (twoTexts tag a b) [0] = some (.text a) := rfl
  have hnext : getNextExtendedSibling (twoTexts tag a b) [0] = some [1] := rfl
  have hres1 : resolveR (twoTexts tag a b) [1] = some (.text b) := rfl
  have hfuel : nodeCount (twoTexts tag a b) + 1 = 4 := rfl
  simp only [move, hres, hrev, Bool.false_eq_true, if_false, Int.natAbs_ofNat, hfuel, hnext]
  rw [if_neg (by omega)]
  simp only [moveLoop, hres1, Bool.false_eq_true, if_false]
  rw [if_pos (by omega)]

/-- Helper: over the two-text tree, a forward move that exhausts both
text nodes saturates to the root with index 1. -/
lemma twoTexts_sat (tag a b : String) (i k : Nat)
    (h2 : a.length - i ≤ k) (h3 : b.length ≤ k - (a.length - i)) :
    move (twoTexts tag a b) ⟨[0], i⟩ (k : Int) = some ⟨[], 1⟩ := by
  have hrev : decide ((k : Int) < 0) = false := by simp
  have hres : resolveR (twoTexts tag a b) [0] = some (.text a) := rfl
  have hnext : getNextExtendedSibling (twoTexts tag a b) [0] = some [1] := rfl
  have hnext1 : getNextExtendedSibling (twoTexts tag a b) [1] = none := rfl
  have hres1 : resolveR (twoTexts tag a b) [1] = some (.text b) := rfl
  have hfuel : nodeCount (twoTexts tag a b) + 1 = 4 := rfl
  simp only [move, hres, hrev, Bool.false_eq_true, if_false, Int.natAbs_ofNat, hfuel, hnext]
  rw [if_neg (by omega)]
  simp only [moveLoop, hres1, Bool.false_eq_true, if_false, hnext1]
  rw [if_neg (by omega)]
  simp only [moveLoop, getRootNodeP]

/-- C3: when a forward move from a text anchor cannot be satisfied
inside that node (the remaining `a.length - i` characters do not exceed
the distance), the walk crosses into the following text node and lands
there, at local offset equal to the remaining count. -/
theorem move_crosses (tag a b : String) (i k : Nat)
    (h2 : a.length - i ≤ k) (h3 : k - (a.length - i) < b.length) :
    move (twoTexts tag a b) ⟨[0], i⟩ (k : Int) = some ⟨[1], k - (a.length - i)⟩ :=
  twoTexts_cross tag a b i k h2 h3

/-- C3 witness: `move((A,4), 3)` over `[A = "hello", B = "world"]`
yields `(B, 2)`. -/
theorem move_crosses_witness :
    move (twoTexts "div" "hello" "world") ⟨[0], 4⟩ 3 = some ⟨[1], 2⟩ := by
  have h := move_crosses "div" "hello" "world" 4 3 (by decide) (by decide)
  simpa using h

/-- A nonempty string has positive length. -/
lemma strLength_pos (s : String) (h : s ≠ "") : 0 < s.length := by
  cases s with
  | mk data =>
    cases data with
    | nil => simp at h
    | cons c cs => simp [String.length]

/-- C10: over `root → [A = text a, B = text b]` with `B` nonempty, a
forward move from `(A, i)` keeps anchor `A` exactly when the distance
is strictly less than `a.length - i`; in particular at `i = a.length` a
move by 0 relocates to `(B, 0)`, a different position, so `move(p, 0)`
is not the identity on in-bounds positions. -/
theorem move_keeps_anchor_iff (tag a b : String) (i : Nat) (hb : b ≠ "") :
    (∀ k : Nat,
      (∃ c, move (twoTexts tag a b) ⟨[0], i⟩ (k : Int) = some c ∧ c.node = [0]) ↔
        k < a.length - i) ∧
    (move (twoTexts tag a b) ⟨[0], a.length⟩ 0 = some ⟨[1], 0⟩ ∧
      (⟨[1], 0⟩ : Cursor) ≠ ⟨[0], a.length⟩) := by
  refine ⟨fun k => ⟨?_, ?_⟩, ?_, ?_⟩
  · rintro ⟨c, hc, hnode⟩
    by_contra hk
    push_neg at hk
    rcases lt_or_ge (k - (a.length - i)) b.length with h3 | h3
    · rw [twoTexts_cross tag a b i k hk h3] at hc
      cases hc
      simp at hnode
    · rw [twoTexts_sat tag a b i k hk h3] at hc
      cases hc
      simp at hnode
  · intro hk
    exact ⟨⟨[0], i + k⟩, (moveText_fastPath (twoTexts tag a b) [0] a i rfl).1 k hk, rfl⟩
  · have h := twoTexts_cross tag a b a.length 0 (by omega)
      (by simpa using strLength_pos b hb)
    simpa using h
  · intro h
    simp at h

/-- C10 witness: with `A = "hello"`, `B = "world"`, moving forward 4
from `(A, 0)` keeps the anchor iff `4 < 5`, and `move((A,5), 0)` is
`(B, 0)`. -/
theorem move_keeps_anchor_iff_witness :
    ((∃ c, move (twoTexts "div" "hello" "world") ⟨[0], 0⟩ ((4 : Nat) : Int) = some c ∧
        c.node = [0]) ↔ 4 < 5) ∧
    move (twoTexts "div" "hello" "world") ⟨[0], 5⟩ 0 = some ⟨[1], 0⟩ := by
  have h := move_keeps_anchor_iff "div" "hello" "world" 0 (by decide)
  refine ⟨?_, by simpa using h.2.1⟩
  rw [h.1 4]
  decide

/-- C5 counterexample: in a tree whose root is a bare text node
`"hello"`, a forward move past the bounds saturates to the root with
index 1 — but on a text anchor index 1 is a character offset, not
"after", so moving the saturated cursor forward by 1 moves again
instead of staying put: saturation is not idempotent. -/
theorem move_saturation_not_idempotent :
    move (.text "hello") ⟨[], 4⟩ 10 = some ⟨[], 1⟩ ∧
    move (.text "hello") ⟨[], 1⟩ 1 = some ⟨[], 2⟩ ∧
    some (⟨[], 2⟩ : Cursor) ≠ some (⟨[], 1⟩ : Cursor) := by
  refine ⟨rfl, rfl, by decide⟩

/-- C5 (amended): an out-of-bounds move saturates without error to the
root anchor, index 1 forward and index 0 backward (shown over the
single-text-node tree `root → [text a]`); and provided the tree's root
is not itself a text node, the saturated forward position `(root, 1)`
is a fixed point of a further forward move, so saturation is
idempotent. -/
theorem move_saturates_amended :
    (∀ (tag a : String) (i k : Nat), a.length - i ≤ k →
      move (.element tag [.text a]) ⟨[0], i⟩ (k : Int) = some ⟨[], 1⟩) ∧
    (∀ (tag a : String) (i d : Nat), 0 < d → i ≤ d →
      move (.element tag [.text a]) ⟨[0], i⟩ (-(d : Int)) = some ⟨[], 0⟩) ∧
    (∀ t : DNode, isTextNode t = false → move t ⟨[], 1⟩ 1 = some ⟨[], 1⟩) := by
  refine ⟨?_, ?_, ?_⟩
  · intro tag a i k hk
    have hrev : decide ((k : Int) < 0) = false := by simp
    have hres : resolveR (.element tag [.text a]) [0] = some (.text a) := rfl
    have hnext : getNextExtendedSibling (.element tag [.text a]) [0] = none := rfl
    have hfuel : nodeCount (.element tag [.text a]) + 1 = 3 := rfl
    simp only [move, hres, hrev, Bool.false_eq_true, if_false, Int.natAbs_ofNat,
      hfuel, hnext]
    rw [if_neg (by omega)]
    simp only [moveLoop, getRootNodeP, Bool.false_eq_true, if_false]
  · intro tag a i d hd0 hdi
    have hrev : decide ((-(d : Int)) < 0) = true := by simp; omega
    have hres : resolveR (.element tag [.text a]) [0] = some (.text a) := rfl
    have hprev : getPreviousExtendedSibling [0] = none := rfl
    have hfuel : nodeCount (.element tag [.text a]) + 1 = 3 := rfl
    simp only [move, hres, hrev, if_true, Int.natAbs_neg, Int.natAbs_ofNat,
      hfuel, hprev]
    rw [if_neg (by omega)]
    simp only [moveLoop, getRootNodeP, if_true]
  · intro t ht
    cases t with
    | element tag cs => rfl
    | text s => simp [isTextNode] at ht
    | comment s => rfl

/-- C5 witness for the amended claim: saturation and idempotence on
`root → [text "hello"]`. -/
theorem move_saturates_amended_witness :
    move (.element "div" [.text "hello"]) ⟨[0], 4⟩ 10 = some ⟨[], 1⟩ ∧
    move (.element "div" [.text "hello"]) ⟨[], 1⟩ 1 = some ⟨[], 1⟩ := by
  have h := move_saturates_amended
  exact ⟨h.1 "div" "hello" 4 10 (by decide), h.2.2 (.element "div" [.text "hello"]) rfl⟩

/-- Modelled from the claim's wording, for comparison with the code:
the boolean-to-number coercion the claim describes ("after coercing
boolean inputs to 0/1"). -/
def coerceBoolJS : JSVal → JSVal
  | .bool b => .num (if b then 1 else 0)
  | v => v

/-- Modelled from the claim's wording: whether a value is a
non-negative number. -/
def isNonNegNumber : JSVal → Bool
  | .num n => decide (0 ≤ n)
  | _ => false

/-- C9: the `Cursor` constructor succeeds exactly when the anchor is a
node and the index, after boolean coercion, is a non-negative number;
every successfully constructed cursor has a non-negative index, and
every successful assignment through the index setter yields a
non-negative index. -/
theorem cursor_construction (a v : JSVal) :
    ((∃ c, mkCursor a v = Except.ok c) ↔
      (isNodeVal a = true ∧ isNonNegNumber (coerceBoolJS v) = true)) ∧
    (∀ c, mkCursor a v = Except.ok c → 0 ≤ c.index) ∧
    (∀ n, setIndex v = Except.ok n → 0 ≤ n) := by
  have hset : ∀ n, setIndex v = Except.ok n →
      0 ≤ n ∧ isNonNegNumber (coerceBoolJS v) = true := by
    intro n h
    cases v <;> simp only [setIndex, coerceBoolJS, isNonNegNumber] at h ⊢ <;>
      first
      | (split at h <;> simp_all <;> omega)
      | simp_all
  have hnodecase : ∀ p, a = JSVal.jsNode p →
      mkCursor a v = (match setIndex v with
        | .ok n => Except.ok (⟨p, n⟩ : CursorJS)
        | .error e => Except.error e) := by
    rintro p rfl
    simp [mkCursor, isNodeVal]
  refine ⟨⟨?_, ?_⟩, ?_, fun n h => (hset n h).1⟩
  · rintro ⟨c, hc⟩
    have hn : ∃ p, a = JSVal.jsNode p := by
      cases a <;> simp_all [mkCursor, isNodeVal]
    obtain ⟨p, rfl⟩ := hn
    refine ⟨rfl, ?_⟩
    rw [hnodecase p rfl] at hc
    cases hs : setIndex v with
    | ok n => exact (hset n hs).2
    | error e => rw [hs] at hc; cases hc
  · rintro ⟨ha, hv⟩
    have hn : ∃ p, a = JSVal.jsNode p := by
      cases a <;> simp_all [isNodeVal]
    obtain ⟨p, rfl⟩ := hn
    rw [hnodecase p rfl]
    cases hs : setIndex v with
    | ok n => exact ⟨⟨p, n⟩, rfl⟩
    | error e =>
      exfalso
      cases v <;> simp only [setIndex, coerceBoolJS, isNonNegNumber] at hs hv <;>
        first
        | (split at hs <;> simp_all <;> omega)
        | simp_all
  · intro c hc
    have hn : ∃ p, a = JSVal.jsNode p := by
      cases a <;> simp_all [mkCursor, isNodeVal]
    obtain ⟨p, rfl⟩ := hn
    rw [hnodecase p rfl] at hc
    cases hs : setIndex v with
    | ok n =>
      rw [hs] at hc
      cases hc
      exact (hset n hs).1
    | error e => rw [hs] at hc; cases hc

/-- C9 witness: a node anchor with boolean index `true` constructs a
cursor with index 1 (non-negative); a boolean coerces to a non-negative
number. -/
theorem cursor_construction_witness :
    (∃ c, mkCursor (.jsNode []) (.bool true) = Except.ok c) ∧
    0 ≤ (⟨[], 1⟩ : CursorJS).index := by
  have h := cursor_construction (.jsNode []) (.bool true)
  exact ⟨h.1.2 ⟨rfl, by decide⟩, h.2.1 ⟨[], 1⟩ rfl⟩

/-- The root path contains every node of the tree. -/
lemma containsNode_root : ∀ p : RPath, containsNode [] p = true := by
  intro p
  induction p with
  | nil => simp [containsNode]
  | cons i q ih => simp [containsNode, ih]

/-- Only the root contains the root. -/
lemma containsNode_of_root (p : RPath) (hp : p ≠ []) : containsNode p [] = false := by
  simp only [containsNode, decide_eq_false_iff_not]
  exact fun h => hp h.symm

/-- With the whole-root cursors `(root, 0)` and `(root, 1)`, every
non-root node satisfies `extract`'s inclusion condition: the root's
"before" position is before it and the root's "after" position is
after it. -/
lemma extract_cond_root (t : DNode) (p : RPath) (hp : p ≠ []) :
    (containsNode p ([] : RPath) || containsNode p ([] : RPath) ||
      (isBefore t ⟨[], 0⟩ ⟨p, 0⟩ && isAfter t ⟨[], 1⟩ ⟨p, 0⟩)) = true := by
  have h1 : isBefore t ⟨[], 0⟩ ⟨p, 0⟩ = true := by
    unfold isBefore
    rw [if_neg (by simpa using Ne.symm hp), if_neg (by simp)]
    simp [searchNext, containsNode_root]
  have h2 : isAfter t ⟨[], 1⟩ ⟨p, 0⟩ = true := by
    unfold isAfter
    rw [if_neg (by simpa using Ne.symm hp), if_pos (by simp)]
    simp [searchPrev, containsNode_root]
  simp [h1, h2]

/-- With whole-root cursors, `extract` is the identity on every node:
the condition always holds and no truncation applies below the root. -/
lemma extract_id (t : DNode) :
    ∀ k : Nat,
      (∀ n : DNode, sizeOf n ≤ k → ∀ p : RPath, p ≠ [] →
        extract t ⟨[], 0⟩ ⟨[], 1⟩ n p = some n) ∧
      (∀ cs : List DNode, sizeOf cs ≤ k → ∀ (i : Nat) (p : RPath),
        extractList t ⟨[], 0⟩ ⟨[], 1⟩ cs i p = cs) := by
  intro k
  induction k using Nat.strong_induction_on with
  | _ k ih =>
    constructor
    · intro n hn p hp
      rw [extract.eq_def]
      dsimp only
      rw [if_pos (by simpa using extract_cond_root t p hp)]
      cases n with
      | text str =>
        dsimp only
        rw [if_neg hp, if_neg hp]
      | element tag cs =>
        have hlt : sizeOf cs < k := by
          have := hn
          simp only [DNode.element.sizeOf_spec] at this
          omega
        dsimp only
        rw [(ih (sizeOf cs) hlt).2 cs le_rfl 0 p]
      | comment c => rfl
    · intro cs hcs i p
      cases cs with
      | nil => rfl
      | cons c rest =>
        have hc : sizeOf c < k := by
          simp only [List.cons.sizeOf_spec] at hcs
          omega
        have hr : sizeOf rest < k := by
          simp only [List.cons.sizeOf_spec] at hcs
          omega
        rw [extractList.eq_def]
        dsimp only
        rw [(ih (sizeOf c) hc).1 c le_rfl (i :: p) (by simp),
          (ih (sizeOf rest) hr).2 rest le_rfl (i + 1) p]

/-- C8 counterexample: for a root that is itself a text node, the two
default cursors `(root, 0)` and `(root, 1)` make the root both the
start and the end anchor, so its text is truncated to
`substring(0, 1)` — `slice(null, null, root)` does not preserve the
text content. -/
theorem slice_text_root_truncated :
    sliceDom (.text "hello") none none (some []) = Except.ok (some (.text "h")) ∧
    DNode.text "h" ≠ DNode.text "hello" := by
  exact ⟨rfl, by simp⟩

/-- C8 (amended): for every root that is not itself a text node,
`slice(null, null, root)` reproduces the whole tree: same structure,
same text, no truncation (in the value model, the result is the tree
itself). -/
theorem slice_null_null_clone (t : DNode) (ht : isTextNode t = false) :
    sliceDom t none none (some []) = Except.ok (some t) := by
  have hA : isAfter t ⟨[], 0⟩ ⟨[], 1⟩ = false := by
    unfold isAfter
    rw [if_pos rfl]
    cases t with
    | text s => simp [isTextNode] at ht
    | element tag cs => simp [resolveR]
    | comment s => simp [resolveR]
  have hroot : extract t ⟨[], 0⟩ ⟨[], 1⟩ t [] = some t := by
    rw [extract.eq_def]
    dsimp only
    rw [if_pos (by simp [containsNode])]
    cases t with
    | text s => simp [isTextNode] at ht
    | element tag cs =>
      dsimp only
      rw [(extract_id (.element tag cs) (sizeOf cs)).2 cs le_rfl 0 []]
    | comment c => rfl
  simp only [sliceDom, Option.getD, bind, Except.bind, containsNode, hA]
  simp [resolveR, hroot]

/-- C8 witness: the non-text-root clone theorem at the two-text tree. -/
theorem slice_null_null_clone_witness :
    sliceDom (twoTexts "div" "hello" "world") none none (some []) =
      Except.ok (some (twoTexts "div" "hello" "world")) :=
  slice_null_null_clone (twoTexts "div" "hello" "world") rfl

/-- C1: an included text node is truncated according to its anchor
role: both anchors → the substring between the two local offsets;
start anchor only → the suffix from the start offset; end anchor only →
the prefix up to the end offset.  In particular, on the scenario tree
`root → [A = "hello", B = "world"]`, `slice((A,2), (B,3), root)` yields
`root' → [A'("llo"), B'("wor")]`. -/
theorem slice_truncates_text_anchors :
    (∀ (t : DNode) (s e : Cursor) (str : String) (p : RPath),
      (containsNode p s.node || containsNode p e.node ||
        (isBefore t s ⟨p, 0⟩ && isAfter t e ⟨p, 0⟩)) = true →
      ((p = s.node → p = e.node → s.index ≤ e.index →
        extract t s e (.text str) p =
          some (.text ((str.take e.index).drop s.index))) ∧
       (p = s.node → p ≠ e.node →
        extract t s e (.text str) p = some (.text (str.drop s.index))) ∧
       (p ≠ s.node → p = e.node →
        extract t s e (.text str) p = some (.text (str.take e.index))))) ∧
    sliceDom (twoTexts "div" "hello" "world") (some ⟨[0], 2⟩) (some ⟨[1], 3⟩)
        (some []) =
      Except.ok (some (.element "div" [.text "llo", .text "wor"])) := by
  constructor
  · intro t s e str p hcond
    refine ⟨?_, ?_, ?_⟩
    · intro h1 h2 hle
      rw [extract.eq_def]
      dsimp only
      rw [if_pos hcond, if_pos h1, if_pos h2]
      simp [jsSubstring, Nat.max_eq_right hle, Nat.min_eq_left hle]
    · intro h1 h2
      rw [extract.eq_def]
      dsimp only
      rw [if_pos hcond, if_pos h1, if_neg h2]
    · intro h1 h2
      rw [extract.eq_def]
      dsimp only
      rw [if_pos hcond, if_neg h1, if_pos h2]
  · rfl

/-- C1 witness: the truncation clauses evaluated at concrete anchors in
the scenario tree (same-anchor substring, start suffix, end prefix). -/
theorem slice_truncates_text_anchors_witness :
    extract (twoTexts "div" "hello" "world") ⟨[0], 1⟩ ⟨[0], 4⟩ (.text "hello") [0] =
      some (.text "ell") ∧
    extract (twoTexts "div" "hello" "world") ⟨[0], 2⟩ ⟨[1], 3⟩ (.text "hello") [0] =
      some (.text "llo") ∧
    extract (twoTexts "div" "hello" "world") ⟨[0], 2⟩ ⟨[1], 3⟩ (.text "world") [1] =
      some (.text "wor") := by
  have h := slice_truncates_text_anchors.1
  refine ⟨?_, ?_, ?_⟩
  · have := (h (twoTexts "div" "hello" "world") ⟨[0], 1⟩ ⟨[0], 4⟩ "hello" [0]
      (by rfl)).1 rfl rfl (by decide)
    simpa using this
  · have := (h (twoTexts "div" "hello" "world") ⟨[0], 2⟩ ⟨[1], 3⟩ "hello" [0]
      (by rfl)).2.1 rfl (by decide)
    simpa using this
  · have := (h (twoTexts "div" "hello" "world") ⟨[0], 2⟩ ⟨[1], 3⟩ "world" [1]
      (by rfl)).2.2 (by decide) rfl
    simpa using this

/-- `containsNode parent node` holds exactly when `parent` is an
ancestor-or-self of `node`, i.e. a suffix of its reversed path. -/
lemma containsNode_iff (a b : RPath) : containsNode a b = true ↔ a <:+ b := by
  induction b with
  | nil =>
    simp only [containsNode, decide_eq_true_eq, List.suffix_nil]
    exact ⟨fun h => h.symm, fun h => h.symm⟩
  | cons i q ih =>
    simp only [containsNode, Bool.or_eq_true, decide_eq_true_eq, ih,
      List.suffix_cons_iff]
    exact ⟨fun h => h.imp Eq.symm id, fun h => h.imp Eq.symm id⟩

/-- Two reversed paths lie in disjoint subtrees with the first strictly
earlier in document order: below their deepest common ancestor the
first goes through a smaller child index than the second. -/
def Disj (p q : RPath) : Prop :=
  ∃ (p₁ q₁ s : List Nat) (i j : Nat),
    i < j ∧ p = p₁ ++ i :: s ∧ q = q₁ ++ j :: s

/-- Disjoint-subtree paths are not ancestors of one another (in either
direction), hence no single node lies under both. -/
lemma Disj.not_suffix {p q : RPath} (h : Disj p q) : ¬ p <:+ q ∧ ¬ q <:+ p := by
  obtain ⟨p₁, q₁, s, i, j, hij, hp, hq⟩ := h
  constructor
  · intro hpq
    have h1 : (i :: s) <:+ q := (List.suffix_append p₁ (i :: s)).trans (hp ▸ hpq)
    have h2 : (j :: s) <:+ q := hq ▸ List.suffix_append q₁ (j :: s)
    rcases List.suffix_or_suffix_of_suffix h1 h2 with h3 | h3 <;>
      · have := h3.eq_of_length (by simp)
        simp at this
        omega
  · intro hqp
    have h1 : (j :: s) <:+ p := (List.suffix_append q₁ (j :: s)).trans (hq ▸ hqp)
    have h2 : (i :: s) <:+ p := hp ▸ List.suffix_append p₁ (i :: s)
    rcases List.suffix_or_suffix_of_suffix h1 h2 with h3 | h3 <;>
      · have := h3.eq_of_length (by simp)
        simp at this
        omega

/-- Disjointness is transitive through a common midpoint. -/
lemma Disj.trans {p x q : RPath} (h1 : Disj p x) (h2 : Disj x q) : Disj p q := by
  obtain ⟨p₁, x₁, s, i, j, hij, hp, hx⟩ := h1
  obtain ⟨x₂, q₁, u, k, l, hkl, hx₂, hq⟩ := h2
  have hs1 : (j :: s) <:+ x := hx ▸ List.suffix_append x₁ (j :: s)
  have hs2 : (k :: u) <:+ x := hx₂ ▸ List.suffix_append x₂ (k :: u)
  rcases List.suffix_or_suffix_of_suffix hs1 hs2 with h3 | h3
  · rw [List.suffix_cons_iff] at h3
    rcases h3 with h3 | h3
    · obtain ⟨hjk, hsu⟩ : j = k ∧ s = u := by
        constructor <;> [exact (List.cons.injEq _ _ _ _ ▸ h3).1;
          exact (List.cons.injEq _ _ _ _ ▸ h3).2]
      exact ⟨p₁, q₁, s, i, l, by omega, hp, by rw [hq, hsu]⟩
    · obtain ⟨w, hw⟩ := h3
      refine ⟨p₁, q₁ ++ l :: w, s, i, j, hij, hp, ?_⟩
      rw [hq, ← hw]
      simp
  · rw [List.suffix_cons_iff] at h3
    rcases h3 with h3 | h3
    · obtain ⟨hjk, hsu⟩ : k = j ∧ u = s := by
        constructor <;> [exact (List.cons.injEq _ _ _ _ ▸ h3).1;
          exact (List.cons.injEq _ _ _ _ ▸ h3).2]
      exact ⟨p₁, q₁, s, i, l, by omega, hp, by rw [hq, hsu]⟩
    · obtain ⟨w, hw⟩ := h3
      refine ⟨p₁ ++ i :: w, q₁, u, k, l, hkl, ?_, hq⟩
      rw [hp, ← hw]
      simp

/-- A previous extended sibling is strictly before the node, in a
disjoint subtree. -/
lemma prevExt_disj : ∀ {x r : RPath},
    getPreviousExtendedSibling x = some r → Disj r x := by
  intro x
  induction x with
  | nil => intro r h; simp [getPreviousExtendedSibling] at h
  | cons i q ih =>
    intro r h
    rw [getPreviousExtendedSibling] at h
    split at h
    · obtain ⟨r₁, q₁, s, a, b, hab, hr, hq⟩ := ih h
      exact ⟨r₁, i :: q₁, s, a, b, hab, hr, by rw [hq]; rfl⟩
    · cases h
      exact ⟨[], [], q, i - 1, i, by omega, rfl, rfl⟩

/-- A next extended sibling is strictly after the node, in a disjoint
subtree. -/
lemma nextExt_disj (t : DNode) : ∀ {x r : RPath},
    getNextExtendedSibling t x = some r → Disj x r := by
  intro x
  induction x with
  | nil => intro r h; simp [getNextExtendedSibling] at h
  | cons i q ih =>
    intro r h
    rw [getNextExtendedSibling] at h
    split at h
    · cases h
      exact ⟨[], [], q, i, i + 1, by omega, rfl, rfl⟩
    · obtain ⟨q₁, r₁, s, a, b, hab, hq, hr⟩ := ih h
      exact ⟨i :: q₁, r₁, s, a, b, hab, by rw [hq]; rfl, hr⟩

/-- If the `isAfter` search loop finds the target, some node on the
previous-extended-sibling chain — all of which satisfy the chain
invariant — is an ancestor-or-self of the target. -/
lemma searchPrev_found (t : DNode) (y : RPath) (Inv : RPath → Prop)
    (hstep : ∀ P P', Inv P → getPreviousExtendedSibling P = some P' → Inv P') :
    ∀ (fuel : Nat) (cur : Option RPath),
      (∀ P, cur = some P → Inv P) →
      searchPrev t y fuel cur = true → ∃ P, Inv P ∧ P <:+ y := by
  intro fuel
  induction fuel with
  | zero => intro cur _ h; rw [searchPrev] at h; cases h
  | succ f ihf =>
    intro cur hbase h
    cases cur with
    | none => rw [searchPrev] at h; cases h
    | some p =>
      rw [searchPrev, Bool.or_eq_true] at h
      rcases h with h | h
      · exact ⟨p, hbase p rfl, (containsNode_iff p y).mp h⟩
      · exact ihf (getPreviousExtendedSibling p)
          (fun P' hP' => hstep p P' (hbase p rfl) hP') h

/-- If the `isBefore` search loop finds the target, some node on the
next-extended-sibling chain satisfies the chain invariant and is an
ancestor-or-self of the target. -/
lemma searchNext_found (t : DNode) (y : RPath) (Inv : RPath → Prop)
    (hstep : ∀ N N', Inv N → getNextExtendedSibling t N = some N' → Inv N') :
    ∀ (fuel : Nat) (cur : Option RPath),
      (∀ N, cur = some N → Inv N) →
      searchNext t y fuel cur = true → ∃ N, Inv N ∧ N <:+ y := by
  intro fuel
  induction fuel with
  | zero => intro cur _ h; rw [searchNext] at h; cases h
  | succ f ihf =>
    intro cur hbase h
    cases cur with
    | none => rw [searchNext] at h; cases h
    | some p =>
      rw [searchNext, Bool.or_eq_true] at h
      rcases h with h | h
      · exact ⟨p, hbase p rfl, (containsNode_iff p y).mp h⟩
      · exact ihf (getNextExtendedSibling t p)
          (fun N' hN' => hstep p N' (hbase p rfl) hN') h

/-- Mutual exclusion of `isBefore`/`isAfter` when the two cursors sit
on different anchors. -/
lemma before_after_exclusive_ne (t : DNode) (a b : Cursor)
    (hn : a.node ≠ b.node) :
    ¬(isBefore t a b = true ∧ isAfter t a b = true) := by
  rintro ⟨hB, hA⟩
  unfold isBefore at hB
  unfold isAfter at hA
  rw [if_neg hn] at hB hA
  by_cases hi : a.index ≠ 0
  · rw [if_pos hi] at hB hA
    obtain ⟨N, hDN, hNy⟩ := searchNext_found t b.node (fun N => Disj a.node N)
      (fun N N' hInv h => hInv.trans (nextExt_disj t h))
      (nodeCount t + 1) (getNextExtendedSibling t a.node)
      (fun N hN => nextExt_disj t hN) hB
    obtain ⟨P, hP, hPy⟩ := searchPrev_found t b.node
      (fun P => P = a.node ∨ Disj P a.node)
      (fun P P' hInv h => Or.inr (by
        rcases hInv with rfl | hInv
        · exact prevExt_disj h
        · exact (prevExt_disj h).trans hInv))
      (nodeCount t + 1) (some a.node) (fun P hP => by cases hP; exact Or.inl rfl) hA
    rcases hP with rfl | hP
    · rcases List.suffix_or_suffix_of_suffix hPy hNy with h | h
      · exact hDN.not_suffix.1 h
      · exact hDN.not_suffix.2 h
    · have hPN : Disj P N := hP.trans hDN
      rcases List.suffix_or_suffix_of_suffix hPy hNy with h | h
      · exact hPN.not_suffix.1 h
      · exact hPN.not_suffix.2 h
  · rw [if_neg hi] at hB hA
    obtain ⟨N, hN, hNy⟩ := searchNext_found t b.node
      (fun N => N = a.node ∨ Disj a.node N)
      (fun N N' hInv h => Or.inr (by
        rcases hInv with rfl | hInv
        · exact nextExt_disj t h
        · exact hInv.trans (nextExt_disj t h)))
      (nodeCount t + 1) (some a.node) (fun N hN => by cases hN; exact Or.inl rfl) hB
    obtain ⟨P, hDP, hPy⟩ := searchPrev_found t b.node (fun P => Disj P a.node)
      (fun P P' hInv h => (prevExt_disj h).trans hInv)
      (nodeCount t + 1) (getPreviousExtendedSibling a.node)
      (fun P hP => prevExt_disj hP) hA
    rcases hN with rfl | hN
    · rcases List.suffix_or_suffix_of_suffix hPy hNy with h | h
      · exact hDP.not_suffix.1 h
      · exact hDP.not_suffix.2 h
    · have hPN : Disj P N := hDP.trans hN
      rcases List.suffix_or_suffix_of_suffix hPy hNy with h | h
      · exact hPN.not_suffix.1 h
      · exact hPN.not_suffix.2 h

/-- C6: for every pair of cursors in the same tree at most one of
`isBefore(a,b)` and `isAfter(a,b)` holds; on a common text anchor the
offsets compare numerically; on a common container anchor offset 0
("before") is ordered before any nonzero offset ("after"), and equal
offsets are a tie (neither holds). -/
theorem before_after_order (t : DNode) (a b : Cursor) :
    (¬(isBefore t a b = true ∧ isAfter t a b = true)) ∧
    (∀ s : String, a.node = b.node → resolveR t a.node = some (.text s) →
      isBefore t a b = decide (a.index < b.index) ∧
      isAfter t a b = decide (b.index < a.index)) ∧
    (∀ n : DNode, a.node = b.node → resolveR t a.node = some n →
      isTextNode n = false →
      ((a.index = 0 → b.index ≠ 0 →
        isBefore t a b = true ∧ isAfter t a b = false) ∧
       (a.index = b.index →
        isBefore t a b = false ∧ isAfter t a b = false))) := by
  refine ⟨?_, ?_, ?_⟩
  · by_cases hn : a.node = b.node
    · rintro ⟨hB, hA⟩
      unfold isBefore at hB
      unfold isAfter at hA
      rw [if_pos hn] at hB hA
      cases hres : resolveR t a.node with
      | none =>
        rw [hres] at hB hA
        dsimp only at hB hA
        split at hB <;> split at hA <;> simp_all
      | some n =>
        cases n <;> rw [hres] at hB hA <;> dsimp only at hB hA
        · split at hB <;> split at hA <;> simp_all
        · simp only [decide_eq_true_eq] at hB hA
          omega
        · split at hB <;> split at hA <;> simp_all
    · exact before_after_exclusive_ne t a b hn
  · intro s hn hres
    unfold isBefore isAfter
    rw [if_pos hn, if_pos hn, hres]
    exact ⟨rfl, rfl⟩
  · intro n hn hres hnt
    unfold isBefore isAfter
    rw [if_pos hn, if_pos hn, hres]
    cases n with
    | text s => simp [isTextNode] at hnt
    | element tag cs =>
      refine ⟨fun h0 hb0 => ?_, fun hab => ?_⟩
      · dsimp only
        simp [h0, hb0]
      · dsimp only
        by_cases h0 : a.index = 0 <;> simp [h0, ← hab]
    | comment c =>
      refine ⟨fun h0 hb0 => ?_, fun hab => ?_⟩
      · dsimp only
        simp [h0, hb0]
      · dsimp only
        by_cases h0 : a.index = 0 <;> simp [h0, ← hab]

/-- C6 witness: over the two-text tree, exclusivity at distinct
anchors, numeric comparison on a shared text anchor, and
before-vs-after ordering on the container root. -/
theorem before_after_order_witness :
    (¬(isBefore (twoTexts "div" "hello" "world") ⟨[0], 1⟩ ⟨[1], 0⟩ = true ∧
       isAfter (twoTexts "div" "hello" "world") ⟨[0], 1⟩ ⟨[1], 0⟩ = true)) ∧
    (isBefore (twoTexts "div" "hello" "world") ⟨[0], 1⟩ ⟨[0], 3⟩ =
        decide ((1 : Nat) < 3) ∧
      isAfter (twoTexts "div" "hello" "world") ⟨[0], 1⟩ ⟨[0], 3⟩ =
        decide ((3 : Nat) < 1)) ∧
    (isBefore (twoTexts "div" "hello" "world") ⟨[], 0⟩ ⟨[], 1⟩ = true ∧
      isAfter (twoTexts "div" "hello" "world") ⟨[], 0⟩ ⟨[], 1⟩ = false) := by
  refine ⟨(before_after_order (twoTexts "div" "hello" "world") ⟨[0], 1⟩ ⟨[1], 0⟩).1,
    (before_after_order (twoTexts "div" "hello" "world") ⟨[0], 1⟩ ⟨[0], 3⟩).2.1
      "hello" rfl rfl, ?_⟩
  exact ((before_after_order (twoTexts "div" "hello" "world") ⟨[], 0⟩ ⟨[], 1⟩).2.2
    (twoTexts "div" "hello" "world") rfl rfl rfl).1 rfl (by decide)

/-- Resolution of a child path. -/
lemma resolve_cons (t : DNode) (i : Nat) (q : RPath) (c : DNode) :
    resolveR t (i :: q) = some c ↔
      ∃ m, resolveR t q = some m ∧ childAt m i = some c := by
  rw [resolveR]
  cases h : resolveR t q with
  | none => simp
  | some m => simp

/-- Every suffix of a resolvable path resolves (ancestors of a node
exist). -/
lemma resolve_suffix (t : DNode) :
    ∀ (p : RPath) (n : DNode), resolveR t p = some n →
      ∀ q : RPath, q <:+ p → ∃ m, resolveR t q = some m := by
  intro p
  induction p with
  | nil =>
    intro n hn q hq
    rw [List.suffix_nil] at hq
    exact ⟨n, hq ▸ hn⟩
  | cons i p' ih =>
    intro n hn q hq
    rw [List.suffix_cons_iff] at hq
    rcases hq with rfl | hq
    · exact ⟨n, hn⟩
    · obtain ⟨m, hm, -⟩ := (resolve_cons t i p' n).mp hn
      exact ih m hm q hq

/-- Closed form of the last-child descent over a nonempty child list. -/
lemma lastLeafRelList_eq :
    ∀ (cs : List DNode) (c : DNode) (i : Nat), cs.getLast? = some c →
      lastLeafRelList i cs = lastLeafRel c ++ [i + (cs.length - 1)] := by
  intro cs
  induction cs with
  | nil => intro c i h; simp at h
  | cons c0 rest ih =>
    intro c i h
    cases rest with
    | nil =>
      simp only [List.getLast?_singleton, Option.some.injEq] at h
      subst h
      rfl
    | cons c1 rest' =>
      have hlast : (c1 :: rest').getLast? = some c := by
        rw [List.getLast?_cons_cons] at h
        exact h
      rw [show lastLeafRelList i (c0 :: c1 :: rest') =
            lastLeafRelList (i + 1) (c1 :: rest') from rfl,
        ih c (i + 1) hlast]
      simp only [List.length_cons]
      congr 2
      omega

/-- The deepest last leaf of a resolvable node resolves and has no
children. -/
lemma lastLeaf_resolves (t : DNode) :
    ∀ (k : Nat) (n : DNode), sizeOf n ≤ k → ∀ s : RPath,
      resolveR t s = some n →
      ∃ m, resolveR t (lastLeafRel n ++ s) = some m ∧ hasChildNodes m = false := by
  intro k
  induction k using Nat.strong_induction_on with
  | _ k ih =>
    intro n hk s hs
    cases n with
    | text v => exact ⟨.text v, hs, rfl⟩
    | comment v => exact ⟨.comment v, hs, rfl⟩
    | element tag cs =>
      cases hcs : cs.getLast? with
      | none =>
        rw [List.getLast?_eq_none_iff] at hcs
        subst hcs
        exact ⟨.element tag [], hs, rfl⟩
      | some c =>
        have hmem : c ∈ cs := List.mem_of_mem_getLast? hcs
        have hsz : sizeOf c < k := by
          have h1 := List.sizeOf_lt_of_mem hmem
          have h2 := hk
          simp only [DNode.element.sizeOf_spec] at h2
          omega
        have hrel : lastLeafRel (.element tag cs) =
            lastLeafRel c ++ [cs.length - 1] := by
          rw [lastLeafRel, lastLeafRelList_eq cs c 0 hcs]
          simp
        have hres : resolveR t ((cs.length - 1) :: s) = some c := by
          rw [resolve_cons]
          refine ⟨.element tag cs, hs, ?_⟩
          rw [childAt, ← List.getLast?_eq_getElem? cs, hcs]
        have := ih (sizeOf c) hsz c le_rfl ((cs.length - 1) :: s) hres
        rw [hrel, List.append_assoc]
        simpa using this

/-- Walking out of a deepest last leaf: its next extended sibling is
the next extended sibling of the node it descends from. -/
lemma lastLeaf_nextExt (t : DNode) :
    ∀ (k : Nat) (n : DNode), sizeOf n ≤ k → ∀ s : RPath,
      resolveR t s = some n →
      getNextExtendedSibling t (lastLeafRel n ++ s) =
        getNextExtendedSibling t s := by
  intro k
  induction k using Nat.strong_induction_on with
  | _ k ih =>
    intro n hk s hs
    cases n with
    | text v => rfl
    | comment v => rfl
    | element tag cs =>
      cases hcs : cs.getLast? with
      | none =>
        rw [List.getLast?_eq_none_iff] at hcs
        subst hcs
        rfl
      | some c =>
        have hmem : c ∈ cs := List.mem_of_mem_getLast? hcs
        have hsz : sizeOf c < k := by
          have h1 := List.sizeOf_lt_of_mem hmem
          have h2 := hk
          simp only [DNode.element.sizeOf_spec] at h2
          omega
        have hlen : 0 < cs.length := List.length_pos.mpr
          (by rintro rfl; simp at hcs)
        have hrel : lastLeafRel (.element tag cs) =
            lastLeafRel c ++ [cs.length - 1] := by
          rw [lastLeafRel, lastLeafRelList_eq cs c 0 hcs]
          simp
        have hres : resolveR t ((cs.length - 1) :: s) = some c := by
          rw [resolve_cons]
          refine ⟨.element tag cs, hs, ?_⟩
          rw [childAt, ← List.getLast?_eq_getElem? cs, hcs]
        rw [hrel, List.append_assoc, List.singleton_append,
          ih (sizeOf c) hsz c le_rfl ((cs.length - 1) :: s) hres,
          getNextExtendedSibling]
        have hnone : hasNode t ((cs.length - 1 + 1) :: s) = false := by
          have : cs.length - 1 + 1 = cs.length := by omega
          rw [this, hasNode]
          cases hq : resolveR t (cs.length :: s) with
          | none => rfl
          | some m =>
            exfalso
            obtain ⟨m', hm', hc⟩ := (resolve_cons t cs.length s m).mp hq
            rw [hs] at hm'
            cases hm'
            rw [childAt] at hc
            simp at hc
        rw [hnone]
        simp

/-- Every entry of `w` (read with its tail inside the full path
`w ++ base`) denotes a node with no next sibling in `t`. -/
def NoNexts (t : DNode) : List Nat → RPath → Prop
  | [], _ => True
  | i :: w, base => hasNode t ((i + 1) :: (w ++ base)) = false ∧ NoNexts t w base

/-- Decomposition of a successful next-extended-sibling lookup: the
input path splits as `w ++ (j :: q)` where every node along `w` is a
last child and the sibling `(j+1) :: q` exists. -/
lemma nextExt_char (t : DNode) :
    ∀ p r : RPath, getNextExtendedSibling t p = some r →
      ∃ w j q, p = w ++ (j :: q) ∧ r = (j + 1) :: q ∧
        hasNode t ((j + 1) :: q) = true ∧ NoNexts t w (j :: q) := by
  intro p
  induction p with
  | nil => intro r h; rw [getNextExtendedSibling] at h; cases h
  | cons i q0 ih =>
    intro r h
    rw [getNextExtendedSibling] at h
    split at h
    next hcond =>
      cases h
      exact ⟨[], i, q0, rfl, rfl, hcond, trivial⟩
    next hcond =>
      obtain ⟨w, j, q, hq0, hr, hh, hnn⟩ := ih r h
      refine ⟨i :: w, j, q, by rw [hq0]; rfl, hr, hh, ?_, hnn⟩
      rw [← hq0]
      simpa using hcond

/-- `NoNexts` over a path extended on the right by one entry. -/
lemma NoNexts_append_singleton (t : DNode) :
    ∀ (w : List Nat) (k : Nat) (base : RPath),
      NoNexts t (w ++ [k]) base ↔
        NoNexts t w (k :: base) ∧ hasNode t ((k + 1) :: base) = false := by
  intro w
  induction w with
  | nil =>
    intro k base
    simp [NoNexts]
  | cons i w' ih =>
    intro k base
    have hp : (w' ++ [k]) ++ base = w' ++ (k :: base) := by simp
    simp only [List.cons_append, NoNexts, List.append_eq, hp, ih k base]
    tauto

/-- Reconstruction: a childless node reached from `base` through a path
of last children is the deepest last leaf of the node at `base`. -/
lemma lastLeafRel_of_noNexts (t : DNode) :
    ∀ (w : List Nat) (base : RPath) (n nd : DNode),
      resolveR t base = some n → resolveR t (w ++ base) = some nd →
      hasChildNodes nd = false → NoNexts t w base →
      lastLeafRel n = w := by
  intro w
  induction w using List.reverseRecOn with
  | nil =>
    intro base n nd hn hnd hcl _
    simp only [List.nil_append] at hnd
    rw [hn] at hnd
    cases hnd
    cases n with
    | text v => rfl
    | comment v => rfl
    | element tag cs =>
      cases cs with
      | nil => rfl
      | cons c rest => simp [hasChildNodes] at hcl
  | append_singleton w' k ih =>
    intro base n nd hn hnd hcl hnn
    rw [NoNexts_append_singleton] at hnn
    obtain ⟨hnn', hknext⟩ := hnn
    have hpath : (w' ++ [k]) ++ base = w' ++ (k :: base) := by simp
    rw [hpath] at hnd
    have hkres : ∃ c, resolveR t (k :: base) = some c := by
      apply resolve_suffix t (w' ++ (k :: base)) nd hnd
      exact List.suffix_append w' (k :: base)
    obtain ⟨c, hc⟩ := hkres
    obtain ⟨m, hm, hchild⟩ := (resolve_cons t k base c).mp hc
    rw [hn] at hm
    cases hm
    cases n with
    | text v => simp [childAt] at hchild
    | comment v => simp [childAt] at hchild
    | element tag cs =>
      rw [show childAt (DNode.element tag cs) k = cs[k]? from rfl] at hchild
      have hklt : k < cs.length := by
        by_contra hge
        rw [List.getElem?_eq_none (by omega)] at hchild
        cases hchild
      have hkeq : k = cs.length - 1 := by
        by_contra hne
        have hlt : k + 1 < cs.length := by omega
        have : hasNode t ((k + 1) :: base) = true := by
          rw [hasNode, (resolve_cons t (k + 1) base _).mpr
            ⟨.element tag cs, hn, by
              rw [childAt, List.getElem?_eq_getElem hlt]⟩]
          rfl
        rw [this] at hknext
        cases hknext
      have hlast : cs.getLast? = some c := by
        rw [List.getLast?_eq_getElem?, ← hkeq]
        exact hchild
      have hrel : lastLeafRel (.element tag cs) = lastLeafRel c ++ [k] := by
        rw [lastLeafRel, lastLeafRelList_eq cs c 0 hlast, hkeq]
        simp
      rw [hrel, ih (k :: base) c nd hc hnd hcl hnn']

/-- C7: `getPreviousNode` returns the deepest last leaf of the previous
sibling when one exists, otherwise the parent, and `none` at the root;
and on every node of a tree it is the exact inverse of `getNextNode`:
`getNextNode (getPreviousNode n) = n` whenever the former is non-null,
and `getPreviousNode (getNextNode n) = n` whenever `getNextNode n` is
non-null. -/
theorem prev_next_inverse (t : DNode) (p : RPath) (n : DNode)
    (hp : resolveR t p = some n) :
    (getPreviousNode t [] = none) ∧
    (∀ i q, p = i :: q →
      getPreviousNode t p =
        (if i = 0 then some q else some (getLastLeafNode t ((i - 1) :: q)))) ∧
    (∀ r, getPreviousNode t p = some r → getNextNode t r = some p) ∧
    (∀ r, getNextNode t p = some r → getPreviousNode t r = some p) := by
  refine ⟨rfl, ?_, ?_, ?_⟩
  · rintro i q rfl
    rw [getPreviousNode]
  · intro r h
    cases p with
    | nil => rw [getPreviousNode] at h; cases h
    | cons i q =>
      rw [getPreviousNode] at h
      by_cases hi : i = 0
      · rw [if_pos hi] at h
        obtain rfl := Option.some.inj h
        subst hi
        obtain ⟨m, hm, hchild⟩ := (resolve_cons t 0 q n).mp hp
        cases m with
        | text v => simp [childAt] at hchild
        | comment v => simp [childAt] at hchild
        | element tag cs =>
          rw [show childAt (DNode.element tag cs) 0 = cs[0]? from rfl] at hchild
          have hne : cs ≠ [] := by rintro rfl; simp at hchild
          rw [getNextNode, hm]
          dsimp only
          rw [if_pos (by simp [hasChildNodes, List.isEmpty_iff, hne])]
      · rw [if_neg hi] at h
        cases h
        obtain ⟨m, hm, hchild⟩ := (resolve_cons t i q n).mp hp
        cases m with
        | text v => simp [childAt] at hchild
        | comment v => simp [childAt] at hchild
        | element tag cs =>
          rw [show childAt (DNode.element tag cs) i = cs[i]? from rfl] at hchild
          have hilt : i < cs.length := by
            by_contra hge
            rw [List.getElem?_eq_none (by omega)] at hchild
            cases hchild
          have hres : resolveR t ((i - 1) :: q) = some cs[i - 1] := by
            rw [resolve_cons]
            exact ⟨.element tag cs, hm, by
              rw [show childAt (DNode.element tag cs) (i - 1) = cs[i - 1]? from rfl,
                List.getElem?_eq_getElem (by omega)]⟩
          have hll : getLastLeafNode t ((i - 1) :: q) =
              lastLeafRel cs[i - 1] ++ ((i - 1) :: q) := by
            rw [getLastLeafNode, hres]
          obtain ⟨m', hm', hcl⟩ :=
            lastLeaf_resolves t (sizeOf cs[i - 1]) cs[i - 1] le_rfl
              ((i - 1) :: q) hres
          rw [hll, getNextNode, hm']
          dsimp only
          rw [if_neg (by simp [hcl]),
            lastLeaf_nextExt t (sizeOf cs[i - 1]) cs[i - 1] le_rfl
              ((i - 1) :: q) hres,
            getNextExtendedSibling]
          have hi1 : i - 1 + 1 = i := by omega
          rw [hi1, if_pos (by simp [hasNode, hp])]
  · intro r h
    rw [getNextNode, hp] at h
    dsimp only at h
    by_cases hch : hasChildNodes n = true
    · rw [if_pos hch] at h
      cases h
      rw [getPreviousNode, if_pos rfl]
    · rw [if_neg hch] at h
      obtain ⟨w, j, q, hpw, hr, hh, hnn⟩ := nextExt_char t p r h
      subst hr
      rw [getPreviousNode, if_neg (by omega)]
      have hj : j + 1 - 1 = j := by omega
      rw [hj]
      obtain ⟨nj, hnj⟩ := resolve_suffix t p n hp (j :: q)
        (hpw ▸ List.suffix_append w (j :: q))
      rw [getLastLeafNode, hnj]
      dsimp only
      rw [lastLeafRel_of_noNexts t w (j :: q) nj n hnj (by rw [← hpw]; exact hp)
          (by simpa using hch) hnn,
        ← hpw]

/-- C7 witness: in `root → [elem e → [text x, elem f → [text y]], text z]`,
the previous node of the second child is the deepest last leaf
`[1,1,0]`-reversed path `[0,1,0]`, and the inverse laws hold there. -/
theorem prev_next_inverse_witness :
    getPreviousNode (DNode.element "d"
        [.element "e" [.text "x", .element "f" [.text "y"]], .text "z"]) [1] =
      some [0, 1, 0] ∧
    getNextNode (DNode.element "d"
        [.element "e" [.text "x", .element "f" [.text "y"]], .text "z"]) [0, 1, 0] =
      some [1] ∧
    getPreviousNode (DNode.element "d"
        [.element "e" [.text "x", .element "f" [.text "y"]], .text "z"]) [0, 0] =
      some [0] := by
  have h1 := prev_next_inverse (DNode.element "d"
    [.element "e" [.text "x", .element "f" [.text "y"]], .text "z"]) [1]
    (.text "z") rfl
  have h2 := prev_next_inverse (DNode.element "d"
    [.element "e" [.text "x", .element "f" [.text "y"]], .text "z"]) [0, 0]
    (.text "x") rfl
  refine ⟨?_, ?_, ?_⟩
  · rw [h1.2.1 1 [] rfl]
    rfl
  · exact h1.2.2.1 [0, 1, 0] (by rfl)
  · rw [h2.2.1 0 [0] rfl]
    simp
